import Mathlib

/-!
Verification of the application-catalog resolution pipeline of `cyberdesk_main.py`:
icon path resolution (`find_real_icon_path`), descriptor parsing (`parse_desktop`),
catalog building (`load_apps`) and launching (`AppIcon.launch_app`), as a shallow
embedding.  Filesystem state is passed explicitly; Python strings are Lean `String`s,
with the string operations implemented over the underlying character lists so that
everything evaluates by kernel reduction.
-/

/-! ### Python string helpers -/

/-- Characters in `shlex.whitespace` (`' \t\r\n'`). -/
def isShWS (c : Char) : Bool := c = ' ' || c = '\t' || c = '\r' || c = '\n'

/-- `l` with leading and trailing whitespace removed; models Python `str.strip()`. -/
def pyTrimChars (l : List Char) : List Char :=
  ((l.dropWhile Char.isWhitespace).reverse.dropWhile Char.isWhitespace).reverse

/-- Python `s.strip()`. -/
def pyStrip (s : String) : String := String.mk (pyTrimChars s.data)

/-- Python `s.lower()` (ASCII case folding). -/
def pyLower (s : String) : String := String.mk (s.data.map Char.toLower)

/-- Python `s.upper()` (ASCII case folding). -/
def pyUpper (s : String) : String := String.mk (s.data.map Char.toUpper)

/-- Python `s[:1]`: the first character as a string, or empty. -/
def pyFirst (s : String) : String := String.mk (s.data.take 1)

/-- Split a character list at every character satisfying `p`, keeping empty pieces
(the behaviour of Python `str.split(sep)` for a one-character separator). -/
def splitChars (p : Char → Bool) : List Char → List (List Char)
  | [] => [[]]
  | c :: cs =>
      if p c then [] :: splitChars p cs
      else
        match splitChars p cs with
        | [] => [[c]]
        | t :: ts => (c :: t) :: ts

/-- Python `s.split()` (no argument): split on whitespace runs, dropping empty pieces. -/
def pySplitWS (s : String) : List String :=
  ((splitChars Char.isWhitespace s.data).map String.mk).filter (fun t => t ≠ "")

/-- Python `s.startswith(pre)`. -/
def pyStartsWith (s pre : String) : Bool := pre.data.isPrefixOf s.data

/-- Python `needle in hay` on strings: substring occurrence test. -/
def strContains (hay needle : String) : Bool :=
  hay.data.tails.any (fun t => needle.data.isPrefixOf t)

/-- Python `sep.join(parts)` for the pieces' character lists. -/
def joinWith (sep : List Char) : List (List Char) → List Char
  | [] => []
  | [t] => t
  | t :: ts => t ++ sep ++ joinWith sep ts

/-- Python `" ".join(parts)`. -/
def joinSpace (parts : List String) : String :=
  String.mk (joinWith [' '] (parts.map String.data))

/-- Last component of a POSIX path, modelling Python `pathlib.PurePath(s).name`
(empty components from repeated or trailing slashes are ignored). -/
def pyBasename (s : String) : String :=
  String.mk ((((splitChars (fun c => c = '/') s.data).filter (fun t => t ≠ [])).getLast?).getD [])

/-- Index of the last `'.'` in a character list, if any. -/
def lastDotIdx (cs : List Char) : Option Nat :=
  ((List.range cs.length).filter (fun i => cs.get? i = some '.')).getLast?

/-- Python `pathlib.PurePath(s).stem`: the final path component with its extension
removed; the dot counts as an extension separator only when it sits strictly
inside the component (`0 < i < len - 1`). -/
def pyStem (s : String) : String :=
  let nm := pyBasename s
  match lastDotIdx nm.data with
  | some i => if 0 < i ∧ i < nm.data.length - 1 then String.mk (nm.data.take i) else nm
  | none => nm

/-! ### `shlex.split` (POSIX mode, `whitespace_split=True`, no comment chars)

State machine over the input characters.  `tok` is the token under construction,
`started` records whether a token is in progress (a quoted empty string still
produces a token, matching CPython's `quoted` flag).  End of input inside a quote
or right after an escape character raises `ValueError` in CPython; here it
returns `.error ()`.
-/

inductive ShMode where
  | norm | esc | squote | dquote | descape
deriving Repr, DecidableEq

def shlexGo : List Char → ShMode → List Char → Bool → List String → Except Unit (List String)
  | [], .norm, tok, started, acc =>
      .ok (if started then acc ++ [String.mk tok] else acc)
  | [], _, _, _, _ => .error ()
  | c :: cs, .norm, tok, started, acc =>
      if isShWS c then
        if started then shlexGo cs .norm [] false (acc ++ [String.mk tok])
        else shlexGo cs .norm tok started acc
      else if c = '\'' then shlexGo cs .squote tok true acc
      else if c = '"' then shlexGo cs .dquote tok true acc
      else if c = '\\' then shlexGo cs .esc tok started acc
      else shlexGo cs .norm (tok ++ [c]) true acc
  | c :: cs, .esc, tok, _, acc =>
      shlexGo cs .norm (tok ++ [c]) true acc
  | c :: cs, .squote, tok, started, acc =>
      if c = '\'' then shlexGo cs .norm tok started acc
      else shlexGo cs .squote (tok ++ [c]) started acc
  | c :: cs, .dquote, tok, started, acc =>
      if c = '"' then shlexGo cs .norm tok started acc
      else if c = '\\' then shlexGo cs .descape tok started acc
      else shlexGo cs .dquote (tok ++ [c]) started acc
  | c :: cs, .descape, tok, started, acc =>
      if c = '\\' || c = '"' then shlexGo cs .dquote (tok ++ [c]) started acc
      else shlexGo cs .dquote (tok ++ ['\\', c]) started acc

/-- Python `shlex.split(s)`; `.error ()` models `ValueError` (unbalanced quoting). -/
def shlexSplit (s : String) : Except Unit (List String) :=
  shlexGo s.data .norm [] false []

/-! ### Exec-command normalization (`parse_desktop`, lines 423-429) -/

/-- The normalized exec command: tokenize with `shlex.split`, drop tokens starting
with `%`, rejoin with single spaces; on `ValueError` fall back to
`raw_exec.split("%")[0].strip()` (everything before the first `%`, stripped).
An empty raw exec yields the empty string (`if raw_exec:` guard). -/
def clean_exec (raw_exec : String) : String :=
  if raw_exec = "" then ""
  else
    match shlexSplit raw_exec with
    | .ok parts => joinSpace (parts.filter (fun p => !pyStartsWith p "%"))
    | .error _ => pyStrip (String.mk (raw_exec.data.takeWhile (fun c => c ≠ '%')))

/-! ### The fixed glyph-keyword table (`ICON_MAP`, lines 44-54), in source order. -/

def ICON_MAP : List (String × String) :=
  [("firefox", "\uF269"), ("chrome", "\uF268"), ("brave", "\uE768"),
   ("code", "\uE70C"), ("neovim", "\uE62B"), ("vim", "\uE62B"), ("terminal", "\uF120"),
   ("kitty", "🐱"), ("alacritty", "\uF120"), ("urxvt", "\uF120"), ("files", "\uF07C"),
   ("folder", "\uF07C"), ("nautilus", "\uF07C"), ("thunar", "\uF07C"),
   ("dolphin", "\uF07C"), ("settings", "\uF013"), ("control", "🎚\uFE0F"),
   ("qt", "\uF1FC"), ("rofi", "\uF002"), ("run", "\uF002"), ("vlc", "\uF008"),
   ("mpv", "\uF008"), ("obs", "\uF03D"), ("monitor", "\uF080"), ("btop", "\uF080"),
   ("discord", "\uFB6E"), ("spotify", "\uF1BC"), ("steam", "\uF1B6"),
   ("waypaper", "\uF03E"), ("wallpaper", "\uF03E"), ("nitrogen", "\uF03E"),
   ("xournal", "\uF040"), ("draw", "\uF040"), ("paint", "\uF1C5"), ("gimp", "\uF1C5"),
   ("uuctl", "\uF287"), ("usb", "\uF287")]


/-! ### Filesystem model

Read-only view of the parts of the filesystem the pipeline probes: the set of
existing directories, the set of existing files (existence checks are the only
filesystem access the resolver performs), and the user's home directory path.
-/

structure FS where
  dirs : List String
  files : List String
  home : String
deriving Repr, DecidableEq

/-- Python `Path(p).exists()`: true for existing files and directories. -/
def fsExists (fs : FS) (p : String) : Bool := fs.files.contains p || fs.dirs.contains p

/-- Python `Path(p).is_absolute()` on POSIX. -/
def pyIsAbsolute (s : String) : Bool := pyStartsWith s "/"

/-! ### Icon resolver (`find_real_icon_path`, lines 62-102) -/

def search_roots (home : String) : List String :=
  ["/usr/share/pixmaps", "/usr/share/icons/hicolor", "/usr/share/icons/Adwaita",
   "/usr/share/icons/breeze", "/usr/share/icons/Papirus", home ++ "/.local/share/icons"]

def resolutions : List String := ["256x256", "128x128", "64x64", "48x48", "scalable"]

def icon_subdirs : List String := ["apps", "categories", "places", "devices"]

def extensions : List String := [".png", ".svg", ".jpg", ".ico"]

/-- `find_real_icon_path`: absolute existing paths are returned verbatim; otherwise
the stem of the icon name is probed as `root/<stem><ext>` over all search roots
(phase 1) and then as `root/<res>/<sub>/<stem><ext>` (exact case first, then
lowercased) over the resolution/category cartesian product (phase 2).  Nested
`findSome?` mirrors the nested loops with early `return`. -/
def find_real_icon_path (fs : FS) (icon_name : String) : Option String :=
  if icon_name = "" then none
  else if pyIsAbsolute icon_name && fsExists fs icon_name then some icon_name
  else
    let clean_name := pyStem icon_name
    let direct_hit := (search_roots fs.home).findSome? fun root =>
      if fsExists fs root then
        extensions.findSome? fun ext =>
          let direct := root ++ "/" ++ (clean_name ++ ext)
          if fsExists fs direct then some direct else none
      else none
    match direct_hit with
    | some p => some p
    | none =>
      (search_roots fs.home).findSome? fun root =>
        if fsExists fs root then
          resolutions.findSome? fun res =>
            icon_subdirs.findSome? fun sub =>
              extensions.findSome? fun ext =>
                let candidate := root ++ "/" ++ res ++ "/" ++ sub ++ "/" ++ (clean_name ++ ext)
                if fsExists fs candidate then some candidate
                else
                  let candidate_lower :=
                    root ++ "/" ++ res ++ "/" ++ sub ++ "/" ++ (pyLower clean_name ++ ext)
                  if fsExists fs candidate_lower then some candidate_lower else none
        else none

/-! ### Descriptor files and their parsing (`parse_desktop`, lines 408-451)

A descriptor file is known by its filename stem and by what `ConfigParser` makes
of it: unreadable/malformed (`cfg.read` raises), missing the `Desktop Entry`
section, or a `Desktop Entry` section whose relevant fields are the five options
below (absent fields are `none`; `ConfigParser` option lookup is case-insensitive,
so one slot per option suffices; `interpolation=None` means values are literal).
-/

structure EntrySection where
  NoDisplay : Option String
  Name : Option String
  Exec : Option String
  Icon : Option String
  Terminal : Option String
deriving Repr, DecidableEq

inductive DescFile where
  | unreadable (stem : String)
  | noDesktopEntry (stem : String)
  | desktopEntry (stem : String) (entry : EntrySection)
deriving Repr, DecidableEq

/-- The dictionary produced by `parse_desktop` for one accepted descriptor. -/
structure AppEntry where
  id : String
  Name : String
  Exec : String
  icon : String
  icon_path : Option String
  terminal : Bool
deriving Repr, DecidableEq

def parse_desktop (fs : FS) (f : DescFile) : Option AppEntry :=
  match f with
  | .unreadable _ => none
  | .noDesktopEntry _ => none
  | .desktopEntry stem entry =>
    if pyLower (entry.NoDisplay.getD "false") = "true" then none
    else
      let name := entry.Name.getD stem
      let raw_exec := entry.Exec.getD ""
      let icon_name := entry.Icon.getD ""
      let term_val := pyLower (entry.Terminal.getD "false")
      let is_terminal := term_val = "true" || term_val = "1"
      let exec_clean := clean_exec raw_exec
      let real_icon_path := find_real_icon_path fs icon_name
      let icon_char :=
        match real_icon_path with
        | some _ => "?"
        | none =>
          let lower_name := pyLower (exec_clean ++ " " ++ icon_name)
          let matched :=
            match ICON_MAP.find? (fun kv => strContains lower_name kv.1) with
            | some kv => kv.2
            | none => "?"
          if matched = "?" then pyUpper (pyFirst name) else matched
      some ⟨stem, name, exec_clean, icon_char, real_icon_path, is_terminal⟩

/-! ### Catalog builder (`load_apps`, lines 391-406) -/

/-- One entry of `DESKTOP_PATHS`: whether the directory exists and, when it does,
its `*.desktop` files in enumeration order. -/
structure DirState where
  present : Bool
  files : List DescFile
deriving Repr, DecidableEq

/-- The full input state of a catalog build. -/
structure SysState where
  fs : FS
  desktop_paths : List DirState
deriving Repr, DecidableEq

/-- The `apps` list: every parsed descriptor of every existing directory, in
directory-scan order. -/
def collect_apps (st : SysState) : List AppEntry :=
  st.desktop_paths.foldl (fun acc d =>
    if d.present then acc ++ d.files.filterMap (parse_desktop st.fs) else acc) []

/-- The dedup loop (`for a in apps: ...`): key `(Name, Exec)`, first occurrence
wins, later duplicates dropped (`seen` models the Python set as a key list). -/
def dedupApps : List (String × String) → List AppEntry → List AppEntry
  | _, [] => []
  | seen, a :: rest =>
    if (a.Name, a.Exec) ∈ seen then dedupApps seen rest
    else a :: dedupApps ((a.Name, a.Exec) :: seen) rest

/-- Lexicographic-by-code-point `≤` on character lists: exactly the order Python
uses to compare the `str` sort keys. -/
def lexLeChars : List Char → List Char → Bool
  | [], _ => true
  | _ :: _, [] => false
  | a :: as, b :: bs => if a < b then true else if b < a then false else lexLeChars as bs

/-- The sort key relation of `sorted(filtered, key=lambda x: x["Name"].lower())`. -/
def appLe (a b : AppEntry) : Prop :=
  lexLeChars (pyLower a.Name).data (pyLower b.Name).data = true

instance : DecidableRel appLe := fun a b =>
  inferInstanceAs (Decidable (lexLeChars (pyLower a.Name).data (pyLower b.Name).data = true))

/-- Python's `sorted` is a stable sort; insertion sort is stable, so it is an
extensionally faithful model. -/
def sortApps (l : List AppEntry) : List AppEntry := l.insertionSort appLe

/-- The synthesized fallback entry (line 406). -/
def fallback_app : AppEntry := ⟨"1", "Term", "bash", "\uF120", none, true⟩

/-- `load_apps`.  The Python initializes `seen`/`filtered` inside the
`for d in DESKTOP_PATHS` loop body, which only runs for directories that exist;
when no desktop directory exists the trailing `sorted(filtered, ...)` raises
`UnboundLocalError`, modelled by `.error ()`. -/
def load_apps (st : SysState) : Except Unit (List AppEntry) :=
  if st.desktop_paths.any (fun d => d.present) then
    let sorted_apps := sortApps (dedupApps [] (collect_apps st))
    .ok (if sorted_apps.isEmpty then [fallback_app] else sorted_apps)
  else .error ()

/-! ### Launch executor (`AppIcon.launch_app`, lines 194-270) -/

/-- The fixed ordered terminal-emulator probe list (lines 219-228). -/
def terminals : List (String × String) :=
  [("x-terminal-emulator", "-e"), ("gnome-terminal", "--"), ("kitty", "-e"),
   ("alacritty", "-e"), ("xfce4-terminal", "-x"), ("konsole", "-e"),
   ("terminator", "-x"), ("xterm", "-e")]

/-- The observable outcome of `launch_app`: each early `return` (with or without
a notification) and the final `subprocess.Popen` call. -/
inductive LaunchResult where
  | noCommand
  | noTokens
  | noTerminal
  | notFound (exe : String)
  | spawned (parts : List String)
deriving Repr, DecidableEq

/-- `launch_app`, with `which` modelling `shutil.which` (whether an executable is
on the search path). -/
def launch_app (command : String) (is_terminal : Bool) (which : String → Bool) :
    LaunchResult :=
  if command = "" then .noCommand
  else
    let cmd_parts :=
      match shlexSplit command with
      | .ok ps => ps
      | .error _ => pySplitWS command
    match cmd_parts with
    | [] => .noTokens
    | _ :: _ =>
      let with_term : Option (List String) :=
        if is_terminal then
          match terminals.find? (fun t => which t.1) with
          | some (term_exe, term_flag) =>
              some ((if term_flag ≠ "" then [term_exe, term_flag] else [term_exe]) ++ cmd_parts)
          | none => none
        else some cmd_parts
      match with_term with
      | none => .noTerminal
      | some parts =>
        match parts with
        | [] => .noTokens
        | executable :: _ =>
          if which executable then .spawned parts else .notFound executable

/-! ### Icon overrides (`load_icon_overrides`, lines 56-60, and `__init__`) -/

/-- The state of the user's `icons.json`: missing, unreadable/invalid JSON, or a
valid JSON object read as a keyword-to-glyph map. -/
inductive OverrideFile where
  | missing
  | malformed
  | valid (m : List (String × String))
deriving Repr, DecidableEq

def load_icon_overrides : OverrideFile → List (String × String)
  | .missing => []
  | .malformed => []
  | .valid m => m

/-- `CyberDesk.__init__` followed by the first `load_apps`: the override map is
loaded and stored, the catalog is built.  The pair is the whole observable
startup state relevant to the catalog pipeline. -/
def startup (st : SysState) (ovf : OverrideFile) :
    List (String × String) × Except Unit (List AppEntry) :=
  (load_icon_overrides ovf, load_apps st)

/-! ### Order properties of the sort-key comparison -/

theorem lexLeChars_refl : ∀ l : List Char, lexLeChars l l = true
  | [] => rfl
  | a :: as => by
    simp only [lexLeChars, lt_irrefl, if_false]
    exact lexLeChars_refl as

theorem lexLeChars_total : ∀ x y : List Char, lexLeChars x y = true ∨ lexLeChars y x = true
  | [], _ => Or.inl rfl
  | _ :: _, [] => Or.inr rfl
  | a :: as, b :: bs => by
    rcases lt_trichotomy a b with hab | hab | hab
    · left; simp [lexLeChars, hab]
    · subst hab
      simp only [lexLeChars, lt_irrefl, if_false]
      exact lexLeChars_total as bs
    · right; simp [lexLeChars, hab]

theorem lexLeChars_trans :
    ∀ {x y z : List Char}, lexLeChars x y = true → lexLeChars y z = true →
      lexLeChars x z = true
  | [], _, _, _, _ => rfl
  | a :: as, [], z, hxy, _ => by simp [lexLeChars] at hxy
  | a :: as, b :: bs, [], _, hyz => by simp [lexLeChars] at hyz
  | a :: as, b :: bs, c :: cs, hxy, hyz => by
    simp only [lexLeChars] at hxy hyz ⊢
    rcases lt_trichotomy a b with hab | hab | hab
    · rcases lt_trichotomy b c with hbc | hbc | hbc
      · simp [lt_trans hab hbc]
      · subst hbc; simp [hab]
      · exfalso; simp [hbc, if_neg (lt_asymm hbc)] at hyz
    · subst hab
      rcases lt_trichotomy a c with hac | hac | hac
      · simp [hac]
      · subst hac
        simp only [lt_irrefl, if_false] at hxy hyz ⊢
        exact lexLeChars_trans hxy hyz
      · exfalso; simp [hac, if_neg (lt_asymm hac)] at hyz
    · exfalso; simp [hab, if_neg (lt_asymm hab)] at hxy

instance : IsTotal AppEntry appLe :=
  ⟨fun x y => lexLeChars_total (pyLower x.Name).data (pyLower y.Name).data⟩

instance : IsTrans AppEntry appLe := ⟨fun _ _ _ h₁ h₂ => lexLeChars_trans h₁ h₂⟩

/-- If `a` does not compare `≤ y`, their keys differ. -/
theorem key_ne_of_not_appLe {a y : AppEntry} (h : ¬ appLe a y) :
    (pyLower y.Name).data ≠ (pyLower a.Name).data := by
  intro he
  exact h (by unfold appLe; rw [he]; exact lexLeChars_refl _)

/-! ### Stability of the sort

`sorted` in Python is a stable sort; so is `List.insertionSort`.  The filter of
the output at any fixed sort key equals the filter of the input: elements with
equal keys keep their relative order. -/

theorem filter_orderedInsert_of_key {a : AppEntry} {k : List Char}
    (hk : (pyLower a.Name).data = k) :
    ∀ m : List AppEntry,
      (m.orderedInsert appLe a).filter (fun x => decide ((pyLower x.Name).data = k)) =
        a :: m.filter (fun x => decide ((pyLower x.Name).data = k))
  | [] => by simp [List.orderedInsert, hk]
  | y :: ys => by
    by_cases hr : appLe a y
    · simp [List.orderedInsert, hr, List.filter, hk]
    · have hy : (pyLower y.Name).data ≠ k := hk ▸ key_ne_of_not_appLe hr
      simp only [List.orderedInsert, if_neg hr]
      rw [List.filter_cons, if_neg (by simpa using hy),
        filter_orderedInsert_of_key hk ys, List.filter_cons, if_neg (by simpa using hy)]

theorem filter_orderedInsert_of_key_ne {a : AppEntry} {k : List Char}
    (hk : (pyLower a.Name).data ≠ k) :
    ∀ m : List AppEntry,
      (m.orderedInsert appLe a).filter (fun x => decide ((pyLower x.Name).data = k)) =
        m.filter (fun x => decide ((pyLower x.Name).data = k))
  | [] => by simp [List.orderedInsert, hk]
  | y :: ys => by
    by_cases hr : appLe a y
    · simp [List.orderedInsert, hr, List.filter_cons, hk]
    · simp only [List.orderedInsert, if_neg hr]
      rw [List.filter_cons, filter_orderedInsert_of_key_ne hk ys, List.filter_cons]

theorem filter_insertionSort (k : List Char) :
    ∀ l : List AppEntry,
      (l.insertionSort appLe).filter (fun x => decide ((pyLower x.Name).data = k)) =
        l.filter (fun x => decide ((pyLower x.Name).data = k))
  | [] => rfl
  | a :: l => by
    by_cases hk : (pyLower a.Name).data = k
    · rw [List.insertionSort, filter_orderedInsert_of_key hk, filter_insertionSort k l,
        List.filter_cons, if_pos (by simpa using hk)]
    · rw [List.insertionSort, filter_orderedInsert_of_key_ne hk, filter_insertionSort k l,
        List.filter_cons, if_neg (by simpa using hk)]

/-! ### Properties of the dedup loop -/

/-- The `(Name, Exec)` deduplication key. -/
def appKey (a : AppEntry) : String × String := (a.Name, a.Exec)

theorem dedupApps_sublist : ∀ (seen : List (String × String)) (l : List AppEntry),
    List.Sublist (dedupApps seen l) l
  | _, [] => List.Sublist.refl _
  | seen, a :: rest => by
    unfold dedupApps
    by_cases h : (a.Name, a.Exec) ∈ seen
    · simpa [h] using (dedupApps_sublist seen rest).cons a
    · simpa [h] using (dedupApps_sublist ((a.Name, a.Exec) :: seen) rest).cons₂ a

theorem mem_dedupApps_not_seen :
    ∀ {seen : List (String × String)} {l : List AppEntry} {a : AppEntry},
      a ∈ dedupApps seen l → appKey a ∉ seen
  | seen, b :: rest, a, h => by
    unfold dedupApps at h
    by_cases hb : (b.Name, b.Exec) ∈ seen
    · rw [if_pos hb] at h
      exact mem_dedupApps_not_seen h
    · rw [if_neg hb] at h
      rcases List.mem_cons.1 h with rfl | h
      · exact hb
      · have := mem_dedupApps_not_seen h
        exact fun hc => this (List.mem_cons_of_mem _ hc)

theorem dedupApps_pairwise_key_ne (seen : List (String × String)) (l : List AppEntry) :
    (dedupApps seen l).Pairwise (fun a b => appKey a ≠ appKey b) := by
  induction l generalizing seen with
  | nil => exact List.Pairwise.nil
  | cons a rest ih =>
    unfold dedupApps
    by_cases h : (a.Name, a.Exec) ∈ seen
    · rw [if_pos h]; exact ih seen
    · rw [if_neg h]
      refine List.Pairwise.cons (fun b hb => ?_) (ih _)
      have hnot := mem_dedupApps_not_seen hb
      intro he
      exact hnot (by rw [← he]; exact List.mem_cons_self _ _)

theorem countP_dedupApps_seen {key : String × String} {seen : List (String × String)}
    (h : key ∈ seen) :
    ∀ l : List AppEntry,
      (dedupApps seen l).countP (fun a => decide (appKey a = key)) = 0
  | [] => rfl
  | a :: rest => by
    unfold dedupApps
    by_cases ha : (a.Name, a.Exec) ∈ seen
    · rw [if_pos ha]; exact countP_dedupApps_seen h rest
    · rw [if_neg ha, List.countP_cons]
      have hne : appKey a ≠ key := fun he => ha (by rw [show (a.Name, a.Exec) = appKey a from rfl, he]; exact h)
      rw [countP_dedupApps_seen (List.mem_cons_of_mem _ h) rest]
      simp [hne]

theorem countP_dedupApps_not_seen {key : String × String} {seen : List (String × String)}
    (h : key ∉ seen) :
    ∀ l : List AppEntry,
      (dedupApps seen l).countP (fun a => decide (appKey a = key)) =
        min (l.countP (fun a => decide (appKey a = key))) 1
  | [] => rfl
  | a :: rest => by
    unfold dedupApps
    by_cases hk : appKey a = key
    · have ha : (a.Name, a.Exec) ∉ seen := by
        rw [show (a.Name, a.Exec) = appKey a from rfl, hk]; exact h
      rw [if_neg ha, List.countP_cons, List.countP_cons]
      have hseen : key ∈ (a.Name, a.Exec) :: seen := by
        rw [show (a.Name, a.Exec) = appKey a from rfl, hk]; exact List.mem_cons_self _ _
      rw [countP_dedupApps_seen hseen rest]
      simp [hk]
    · by_cases ha : (a.Name, a.Exec) ∈ seen
      · rw [if_pos ha, countP_dedupApps_not_seen h rest, List.countP_cons]
        simp [hk]
      · rw [if_neg ha, List.countP_cons, List.countP_cons]
        have hseen : key ∉ (a.Name, a.Exec) :: seen := by
          intro hc
          rcases List.mem_cons.1 hc with he | he
          · exact hk (by rw [show (a.Name, a.Exec) = appKey a from rfl] at he; exact he.symm)
          · exact h he
        rw [countP_dedupApps_not_seen hseen rest]
        simp [hk]

theorem find?_dedupApps :
    ∀ {seen : List (String × String)} {l : List AppEntry} {a : AppEntry},
      a ∈ dedupApps seen l →
        l.find? (fun b => decide (appKey b = appKey a)) = some a
  | seen, b :: rest, a, h => by
    unfold dedupApps at h
    by_cases hb : (b.Name, b.Exec) ∈ seen
    · rw [if_pos hb] at h
      have hnot := mem_dedupApps_not_seen h
      have hne : appKey b ≠ appKey a := by
        intro he
        exact hnot (by rw [← he]; exact hb)
      rw [List.find?_cons_of_neg _ (by simpa using hne)]
      exact find?_dedupApps h
    · rw [if_neg hb] at h
      rcases List.mem_cons.1 h with rfl | h
      · rw [List.find?_cons_of_pos _ (by simp)]
      · have hnot := mem_dedupApps_not_seen h
        have hne : appKey b ≠ appKey a := by
          intro he
          exact hnot (by rw [← he]; exact List.mem_cons_self _ _)
        rw [List.find?_cons_of_neg _ (by simpa using hne)]
        exact find?_dedupApps h

/-! ### `findSome?` calculus: the nested probe loops as a flat candidate list -/

theorem findSome?_congr {α β : Type} {f g : α → Option β} (h : ∀ a, f a = g a) :
    ∀ l : List α, l.findSome? f = l.findSome? g
  | [] => rfl
  | a :: as => by
    simp only [List.findSome?_cons, h a, findSome?_congr h as]

theorem findSome?_guard_eq_find? {α : Type} (ex : α → Bool) :
    ∀ l : List α, (l.findSome? fun c => if ex c then some c else none) = l.find? ex
  | [] => rfl
  | c :: cs => by
    by_cases h : ex c
    · simp [List.findSome?_cons, List.find?_cons_of_pos _ h, h]
    · simp [List.findSome?_cons, List.find?_cons_of_neg _ h, h,
        findSome?_guard_eq_find? ex cs]

theorem findSome?_map {α β γ : Type} (h : α → β) (g : β → Option γ) :
    ∀ l : List α, (l.map h).findSome? g = l.findSome? (fun a => g (h a))
  | [] => rfl
  | a :: as => by
    simp only [List.map_cons, List.findSome?_cons, findSome?_map h g as]

theorem findSome?_append {α β : Type} (f : α → Option β) :
    ∀ l₁ l₂ : List α, (l₁ ++ l₂).findSome? f =
      (match l₁.findSome? f with
       | some b => some b
       | none => l₂.findSome? f)
  | [], _ => rfl
  | a :: as, l₂ => by
    simp only [List.cons_append, List.findSome?_cons]
    cases f a with
    | some b => rfl
    | none => exact findSome?_append f as l₂

theorem findSome?_flatMap {α β γ : Type} (f : α → List β) (g : β → Option γ) :
    ∀ l : List α, (l.flatMap f).findSome? g = l.findSome? (fun a => (f a).findSome? g)
  | [] => rfl
  | a :: as => by
    simp only [List.flatMap_cons, List.findSome?_cons, findSome?_append,
      findSome?_flatMap f g as]
    rfl

theorem findSome?_guard_filter {α β : Type} (ex : α → Bool) (G : α → Option β) :
    ∀ l : List α, (l.findSome? fun r => if ex r then G r else none) =
      (l.filter ex).findSome? G
  | [] => rfl
  | a :: as => by
    by_cases h : ex a
    · simp only [List.findSome?_cons, if_pos h, List.filter_cons, h, if_true]
      cases G a with
      | some b => rfl
      | none => exact findSome?_guard_filter ex G as
    · simp [List.findSome?_cons, List.filter_cons, h, findSome?_guard_filter ex G as]

theorem find?_append {α : Type} (p : α → Bool) :
    ∀ l₁ l₂ : List α, (l₁ ++ l₂).find? p =
      (match l₁.find? p with
       | some b => some b
       | none => l₂.find? p)
  | [], _ => rfl
  | a :: as, l₂ => by
    by_cases h : p a
    · simp [List.find?_cons_of_pos _ h]
    · simp only [List.cons_append, List.find?_cons_of_neg _ h]
      exact find?_append p as l₂

/-! ### The resolver's candidate lists, in probe order -/

/-- Phase-1 candidates: for each existing search root (in order), the direct
files `root/<stem><ext>` over the extension list. -/
def direct_candidates (fs : FS) (clean : String) : List String :=
  ((search_roots fs.home).filter (fun r => fsExists fs r)).flatMap fun root =>
    extensions.map fun ext => root ++ "/" ++ (clean ++ ext)

/-- Phase-2 candidates: for each existing search root, resolution bucket and
category subdirectory (in order), the exact-case candidate then the lowercased
candidate, over the extension list. -/
def sub_candidates (fs : FS) (clean : String) : List String :=
  ((search_roots fs.home).filter (fun r => fsExists fs r)).flatMap fun root =>
    resolutions.flatMap fun res =>
      icon_subdirs.flatMap fun sub =>
        extensions.flatMap fun ext =>
          [root ++ "/" ++ res ++ "/" ++ sub ++ "/" ++ (clean ++ ext),
           root ++ "/" ++ res ++ "/" ++ sub ++ "/" ++ (pyLower clean ++ ext)]

theorem direct_phase_eq_find? (fs : FS) (clean : String) :
    ((search_roots fs.home).findSome? fun root =>
      if fsExists fs root then
        extensions.findSome? fun ext =>
          let direct := root ++ "/" ++ (clean ++ ext)
          if fsExists fs direct then some direct else none
      else none) =
    (direct_candidates fs clean).find? (fsExists fs) := by
  rw [findSome?_guard_filter]
  unfold direct_candidates
  rw [← findSome?_guard_eq_find?, findSome?_flatMap]
  exact findSome?_congr (fun root => by rw [findSome?_map]) _

theorem sub_phase_eq_find? (fs : FS) (clean : String) :
    ((search_roots fs.home).findSome? fun root =>
      if fsExists fs root then
        resolutions.findSome? fun res =>
          icon_subdirs.findSome? fun sub =>
            extensions.findSome? fun ext =>
              let candidate := root ++ "/" ++ res ++ "/" ++ sub ++ "/" ++ (clean ++ ext)
              if fsExists fs candidate then some candidate
              else
                let candidate_lower :=
                  root ++ "/" ++ res ++ "/" ++ sub ++ "/" ++ (pyLower clean ++ ext)
                if fsExists fs candidate_lower then some candidate_lower else none
      else none) =
    (sub_candidates fs clean).find? (fsExists fs) := by
  rw [findSome?_guard_filter]
  unfold sub_candidates
  rw [← findSome?_guard_eq_find?, findSome?_flatMap]
  refine findSome?_congr (fun root => ?_) _
  rw [findSome?_flatMap]
  refine findSome?_congr (fun res => ?_) _
  rw [findSome?_flatMap]
  refine findSome?_congr (fun sub => ?_) _
  rw [findSome?_flatMap]
  refine findSome?_congr (fun ext => ?_) _
  cases h1 : fsExists fs (root ++ "/" ++ res ++ "/" ++ sub ++ "/" ++ (clean ++ ext)) with
  | true => simp [List.findSome?_cons, h1]
  | false =>
    simp only [List.findSome?_cons, List.findSome?_nil, h1, Bool.false_eq_true, if_false]
    cases fsExists fs (root ++ "/" ++ res ++ "/" ++ sub ++ "/" ++ (pyLower clean ++ ext)) <;> rfl

/-! ### Helpers about build results -/

theorem load_apps_ok {st : SysState} {cat : List AppEntry} (hc : load_apps st = .ok cat) :
    cat = (if (sortApps (dedupApps [] (collect_apps st))).isEmpty then [fallback_app]
           else sortApps (dedupApps [] (collect_apps st))) := by
  unfold load_apps at hc
  by_cases h : st.desktop_paths.any (fun d => d.present)
  · rw [if_pos h] at hc
    exact (Except.ok.inj hc).symm
  · rw [if_neg h] at hc
    cases hc

theorem sortApps_length (l : List AppEntry) : (sortApps l).length = l.length :=
  (List.perm_insertionSort appLe l).length_eq

theorem sortApps_eq_nil_iff {l : List AppEntry} : sortApps l = [] ↔ l = [] := by
  constructor
  · intro h
    have := sortApps_length l
    rw [h] at this
    exact List.length_eq_zero.1 this.symm
  · intro h
    rw [h]
    rfl

theorem isEmpty_true_iff (l : List AppEntry) : l.isEmpty = true ↔ l = [] := by
  cases l <;> simp [List.isEmpty]

theorem mk_ne_empty {c : Char} {cs : List Char} : String.mk (c :: cs) ≠ "" := by
  intro h
  have h2 := congrArg String.data h
  simp at h2

theorem mem_pyTrimChars {c : Char} {l : List Char} (h : c ∈ pyTrimChars l) : c ∈ l := by
  unfold pyTrimChars at h
  rw [List.mem_reverse] at h
  have h2 := (List.dropWhile_sublist _).subset h
  rw [List.mem_reverse] at h2
  exact (List.dropWhile_sublist _).subset h2

/-! ### Shared demonstration states -/

def demo_fs : FS := ⟨[], [], "/home/user"⟩

def demo_state : SysState :=
  ⟨demo_fs,
   [⟨true, [.desktopEntry "editor" ⟨none, some "Editor", some "editor %F", some "editor-icon", none⟩]⟩,
    ⟨false, []⟩]⟩

/-- Two directories whose descriptor files produce the same `(Name, Exec)` pair
under different filename stems. -/
def dup_state : SysState :=
  ⟨demo_fs,
   [⟨true, [.desktopEntry "a1" ⟨none, some "App", some "tool1", none, none⟩]⟩,
    ⟨true, [.desktopEntry "a2" ⟨none, some "App", some "tool1", none, none⟩]⟩]⟩

/-! ### C1: fallback entry when the combined parse results are empty -/

/-- C1: the claim says that whenever the combined parse results are empty —
because no descriptor directory exists, or because every descriptor is rejected
— the build returns exactly the one synthesized terminal entry.  The code only
does so when at least one directory exists: `seen`/`filtered` are initialized
inside the `for d in DESKTOP_PATHS` loop body, so with no existing directory the
final `sorted(filtered, ...)` raises `UnboundLocalError` (modelled by
`.error ()`) and no fallback is produced; with one existing empty directory the
fallback is produced as specified. -/
theorem fallback_only_when_some_dir_exists :
    load_apps ⟨demo_fs, [⟨false, []⟩, ⟨false, []⟩]⟩ = .error () ∧
    load_apps ⟨demo_fs, [⟨true, []⟩, ⟨false, []⟩]⟩ = .ok [fallback_app] :=
  ⟨rfl, rfl⟩

/-! ### C9: determinism of the catalog build -/

/-- C9: the build is a pure function of the filesystem state (directory
existence, descriptor enumeration order and contents, icon files), so two
builds over the same unchanged state yield element-for-element equal catalogs,
in content and order. -/
theorem load_apps_deterministic (st₁ st₂ : SysState) (h : st₁ = st₂) :
    load_apps st₁ = load_apps st₂ :=
  congrArg load_apps h

theorem load_apps_deterministic_witness :
    load_apps demo_state = load_apps demo_state :=
  load_apps_deterministic demo_state demo_state rfl

/-! ### C10: the icon-override map is never consulted -/

/-- C10: the catalog — including every entry's glyph — is identical whatever
`icons.json` contains: the loaded override map is stored by `__init__` but never
read by `load_apps`/`parse_desktop`, whose glyph selection consults only the
fixed built-in `ICON_MAP`. -/
theorem catalog_ignores_icon_overrides (st : SysState) (o₁ o₂ : OverrideFile) :
    (startup st o₁).2 = (startup st o₂).2 :=
  rfl

/-! ### C3: deduplication across the combined set, first occurrence wins -/

/-- C3: although `seen`/`filtered` are (re-)initialized inside the directory
loop, the dedup loop itself sits outside it and runs over the whole combined
`apps` list, so deduplication is global: in any built catalog, each
`(Name, Exec)` key occurring among the parsed entries yields exactly one
catalog entry, and that entry is the first occurrence of the key in
directory-scan order. -/
theorem dedup_first_occurrence_wins (st : SysState) (cat : List AppEntry)
    (hc : load_apps st = .ok cat) (key : String × String)
    (hk : 0 < (collect_apps st).countP (fun a => decide (appKey a = key))) :
    cat.countP (fun a => decide (appKey a = key)) = 1 ∧
    ∀ a ∈ cat, appKey a = key →
      (collect_apps st).find? (fun b => decide (appKey b = key)) = some a := by
  have hcat := load_apps_ok hc
  have hdcount : (dedupApps [] (collect_apps st)).countP
      (fun a => decide (appKey a = key)) =
      min ((collect_apps st).countP (fun a => decide (appKey a = key))) 1 :=
    countP_dedupApps_not_seen (List.not_mem_nil key) (collect_apps st)
  have hone : (dedupApps [] (collect_apps st)).countP
      (fun a => decide (appKey a = key)) = 1 := by
    rw [hdcount]
    omega
  have hdne : dedupApps [] (collect_apps st) ≠ [] := by
    intro h
    rw [h] at hone
    simp [List.countP, List.countP.go] at hone
  have hif : (sortApps (dedupApps [] (collect_apps st))).isEmpty = false := by
    rcases h : (sortApps (dedupApps [] (collect_apps st))).isEmpty with _ | _
    · rfl
    · exact absurd (sortApps_eq_nil_iff.1 ((isEmpty_true_iff _).1 h)) hdne
  rw [hif] at hcat
  simp only [Bool.false_eq_true, if_false] at hcat
  have hperm : List.Perm (sortApps (dedupApps [] (collect_apps st)))
      (dedupApps [] (collect_apps st)) :=
    List.perm_insertionSort appLe _
  constructor
  · rw [hcat, hperm.countP_eq]
    exact hone
  · intro a ha hka
    rw [hcat] at ha
    have had : a ∈ dedupApps [] (collect_apps st) := hperm.mem_iff.1 ha
    have := find?_dedupApps had
    rw [hka] at this
    exact this

theorem dedup_first_occurrence_wins_witness :
    ((load_apps dup_state).toOption.getD []).countP
      (fun a => decide (appKey a = ("App", "tool1"))) = 1 :=
  (dedup_first_occurrence_wins dup_state ((load_apps dup_state).toOption.getD [])
    rfl ("App", "tool1") (by decide)).1

/-! ### C4: id uniqueness -/

/-- Two directories holding descriptor files with the same stem `foo` but
different contents: both survive deduplication, so the catalog carries two
entries with equal `id`. -/
def c4_state : SysState :=
  ⟨demo_fs,
   [⟨true, [.desktopEntry "foo" ⟨none, some "A", some "cmd-a", none, none⟩]⟩,
    ⟨true, [.desktopEntry "foo" ⟨none, some "B", some "cmd-b", none, none⟩]⟩]⟩

/-- C4 counterexample: deduplication is keyed on `(name, execCommand)`, not on
`id`, so descriptor files with equal stems in different directories but
different `(Name, Exec)` both reach the catalog and share an id: the claim that
ids are unique within every built catalog is false. -/
theorem duplicate_ids_counterexample :
    (load_apps c4_state).toOption.map (fun cat => cat.map (fun a => a.id)) =
      some ["foo", "foo"] ∧
    ¬ (["foo", "foo"] : List String).Nodup :=
  ⟨rfl, by decide⟩

/-- C4 amended: deduplication keyed on `(name, execCommand)` guarantees unique
ids only under the extra assumption that parsed entries with equal ids
(filename stems) also agree on the `(name, execCommand)` key — e.g. when all
stems are distinct.  Under that assumption no two catalog entries share an id. -/
theorem ids_unique_if_stems_determine_keys (st : SysState) (cat : List AppEntry)
    (hc : load_apps st = .ok cat)
    (h : ∀ a ∈ collect_apps st, ∀ b ∈ collect_apps st, a.id = b.id → appKey a = appKey b) :
    cat.Pairwise (fun a b => a.id ≠ b.id) := by
  have hcat := load_apps_ok hc
  by_cases he : (sortApps (dedupApps [] (collect_apps st))).isEmpty
  · rw [hcat, if_pos he]
    exact List.pairwise_singleton _ _
  · rw [hcat, if_neg he]
    have hperm : List.Perm (sortApps (dedupApps [] (collect_apps st)))
        (dedupApps [] (collect_apps st)) :=
      List.perm_insertionSort appLe _
    have hpw := dedupApps_pairwise_key_ne [] (collect_apps st)
    have hsub := (dedupApps_sublist [] (collect_apps st)).subset
    refine (List.Perm.pairwise_iff (fun hab he2 => hab he2.symm) hperm).2 ?_
    refine hpw.imp_of_mem ?_
    intro a b ha hb hkey hid
    exact hkey (h a (hsub ha) b (hsub hb) hid)

theorem ids_unique_if_stems_determine_keys_witness :
    ((load_apps dup_state).toOption.getD []).Pairwise (fun a b => a.id ≠ b.id) :=
  ids_unique_if_stems_determine_keys dup_state ((load_apps dup_state).toOption.getD [])
    rfl (by decide)

/-! ### C5: case-insensitive sorting, stable on ties -/

/-- A catalog with a case-insensitive tie (`"b"` and `"B"`) to exercise
stability. -/
def tie_state : SysState :=
  ⟨demo_fs,
   [⟨true, [.desktopEntry "e1" ⟨none, some "b", some "cmd1", none, none⟩,
            .desktopEntry "e2" ⟨none, some "B", some "cmd2", none, none⟩,
            .desktopEntry "e3" ⟨none, some "A", some "cmd3", none, none⟩]⟩]⟩

/-- C5: every built catalog is sorted by lowercased name — adjacent pairs
compare non-decreasingly under the code-point order Python uses on the
lowercased keys — and the sort is stable: restricted to any fixed lowercased
name, the catalog lists exactly the deduplicated entries in their original
(pre-sort) relative order. -/
theorem catalog_sorted_and_stable (st : SysState) (cat : List AppEntry)
    (hc : load_apps st = .ok cat) :
    List.Chain' appLe cat ∧
    (dedupApps [] (collect_apps st) ≠ [] →
      ∀ k : List Char,
        cat.filter (fun x => decide ((pyLower x.Name).data = k)) =
          (dedupApps [] (collect_apps st)).filter
            (fun x => decide ((pyLower x.Name).data = k))) := by
  have hcat := load_apps_ok hc
  constructor
  · by_cases he : (sortApps (dedupApps [] (collect_apps st))).isEmpty
    · rw [hcat, if_pos he]
      exact List.chain'_singleton _
    · rw [hcat, if_neg he]
      exact List.Pairwise.chain' (List.sorted_insertionSort appLe _)
  · intro hne k
    have hif : (sortApps (dedupApps [] (collect_apps st))).isEmpty = false := by
      rcases h : (sortApps (dedupApps [] (collect_apps st))).isEmpty with _ | _
      · rfl
      · exact absurd (sortApps_eq_nil_iff.1 ((isEmpty_true_iff _).1 h)) hne
    rw [hcat, hif]
    simp only [Bool.false_eq_true, if_false]
    exact filter_insertionSort k _

theorem catalog_sorted_and_stable_witness :
    List.Chain' appLe ((load_apps tie_state).toOption.getD []) ∧
    ((load_apps tie_state).toOption.getD []).filter
        (fun x => decide ((pyLower x.Name).data = ['b'])) =
      (dedupApps [] (collect_apps tie_state)).filter
        (fun x => decide ((pyLower x.Name).data = ['b'])) :=
  ⟨(catalog_sorted_and_stable tie_state ((load_apps tie_state).toOption.getD []) rfl).1,
   (catalog_sorted_and_stable tie_state ((load_apps tie_state).toOption.getD []) rfl).2
     (by decide) ['b']⟩

/-! ### C2: the fallback glyph -/

theorem icon_map_values_ok : ∀ kv ∈ ICON_MAP, kv.2 ≠ "?" ∧ kv.2 ≠ "" := by decide

/-- A descriptor declaring an empty `Name=`: accepted, but its glyph is empty. -/
def empty_name_sec : EntrySection := ⟨none, some "", some "zzz", some "", none⟩

/-- C2 counterexample: with an empty declared name, no resolvable icon and no
keyword match, `name[:1].upper()` is the empty string, so the parser emits an
empty glyph — not a non-empty placeholder; the `"?"` placeholder is substituted
only later by the renderer (`AppIcon.__init__`: `icon or "?"`). -/
theorem empty_name_empty_glyph_counterexample :
    (parse_desktop demo_fs (.desktopEntry "app1" empty_name_sec)).map (fun e => e.icon) =
      some "" ∧
    ("" : String).data = [] :=
  ⟨rfl, rfl⟩

/-- C2 amended: for every accepted descriptor, when an icon path is resolved the
glyph is the literal `"?"`; otherwise the glyph is the value of the first
keyword of `ICON_MAP` occurring in the lowercased `execCommand ++ " " ++ raw
icon name`, and if none matches it is the first character of `name` uppercased —
which is the empty string (not a placeholder) exactly when `name` is empty.  The
glyph is therefore non-empty whenever `name` is non-empty. -/
theorem glyph_selection (fs : FS) (stem : String) (sec : EntrySection) (e : AppEntry)
    (h : parse_desktop fs (.desktopEntry stem sec) = some e) :
    (e.icon_path ≠ none → e.icon = "?") ∧
    (e.icon_path = none →
      ICON_MAP.find?
          (fun kv => strContains (pyLower (e.Exec ++ " " ++ sec.Icon.getD "")) kv.1) = none →
        e.icon = pyUpper (pyFirst (sec.Name.getD stem))) ∧
    (e.icon_path = none →
      ∀ kv, ICON_MAP.find?
          (fun kv => strContains (pyLower (e.Exec ++ " " ++ sec.Icon.getD "")) kv.1) = some kv →
        e.icon = kv.2) ∧
    (sec.Name.getD stem ≠ "" → e.icon ≠ "") ∧
    (e.icon = "" → sec.Name.getD stem = "") := by
  simp only [parse_desktop] at h
  by_cases hnd : pyLower (sec.NoDisplay.getD "false") = "true"
  · rw [if_pos hnd] at h
    cases h
  · rw [if_neg hnd] at h
    have he := (Option.some.inj h).symm
    subst he
    cases hip : find_real_icon_path fs (sec.Icon.getD "") with
    | some p =>
      refine ⟨fun _ => rfl, fun hn => absurd hn (by simp), fun hn => absurd hn (by simp),
        fun _ => ((by decide : ("?" : String) ≠ "")), fun hq => absurd hq (by decide : ¬ (("?" : String) = ""))⟩
    | none =>
      cases hfind : List.find?
          (fun kv => strContains
            (pyLower (clean_exec (sec.Exec.getD "") ++ " " ++ sec.Icon.getD "")) kv.1)
          ICON_MAP with
      | none =>
        refine ⟨fun hn => absurd rfl hn, fun _ _ => ?_, fun _ kv hkv => absurd hkv (by simp),
          ?_, ?_⟩
        · show (if ("?" : String) = "?" then pyUpper (pyFirst (sec.Name.getD stem))
               else "?") = pyUpper (pyFirst (sec.Name.getD stem))
          rw [if_pos rfl]
        · intro hname
          show (if ("?" : String) = "?" then pyUpper (pyFirst (sec.Name.getD stem))
               else "?") ≠ ""
          rw [if_pos rfl]
          cases hs : (sec.Name.getD stem).data with
          | nil =>
            exfalso
            apply hname
            have h2 : sec.Name.getD stem = String.mk (sec.Name.getD stem).data := rfl
            rw [h2, hs]
          | cons c cs =>
            unfold pyUpper pyFirst
            rw [hs]
            exact mk_ne_empty
        · show (if ("?" : String) = "?" then pyUpper (pyFirst (sec.Name.getD stem))
               else "?") = "" → sec.Name.getD stem = ""
          rw [if_pos rfl]
          intro hq
          by_contra hname
          cases hs : (sec.Name.getD stem).data with
          | nil =>
            apply hname
            have h2 : sec.Name.getD stem = String.mk (sec.Name.getD stem).data := rfl
            rw [h2, hs]
          | cons c cs =>
            unfold pyUpper pyFirst at hq
            rw [hs] at hq
            exact mk_ne_empty hq
      | some kv =>
        have hkv := icon_map_values_ok kv (List.mem_of_find?_eq_some hfind)
        refine ⟨fun hn => absurd rfl hn, fun _ h2 => absurd h2 (by simp), ?_, ?_, ?_⟩
        · intro _ kv' hkv'
          have hk : kv = kv' := Option.some.inj hkv'
          subst hk
          show (if kv.2 = "?" then pyUpper (pyFirst (sec.Name.getD stem)) else kv.2) = kv.2
          rw [if_neg hkv.1]
        · intro _
          show (if kv.2 = "?" then pyUpper (pyFirst (sec.Name.getD stem)) else kv.2) ≠ ""
          rw [if_neg hkv.1]
          exact hkv.2
        · show (if kv.2 = "?" then pyUpper (pyFirst (sec.Name.getD stem)) else kv.2) = "" →
            sec.Name.getD stem = ""
          rw [if_neg hkv.1]
          intro hq
          exact absurd hq hkv.2

def editor_sec : EntrySection :=
  ⟨none, some "Editor", some "editor %F", some "editor-icon", none⟩

def editor_entry : AppEntry := ⟨"editor", "Editor", "editor", "E", none, false⟩

theorem glyph_selection_witness : editor_entry.icon = pyUpper (pyFirst "Editor") :=
  (glyph_selection demo_fs "editor" editor_sec editor_entry rfl).2.1 rfl rfl

/-! ### C6: icon resolution priority -/

/-- C6: for a non-empty icon name that is not an existing absolute path, the
resolver returns exactly the first existing candidate of the flattened probe
list in which every direct `root/<stem><ext>` candidate precedes every
resolution-bucket/category candidate; in particular any existing direct
candidate beats every themed-subdirectory candidate, and if no candidate
exists the result is `none` (no error). -/
theorem icon_resolution_priority (fs : FS) (icon_name : String)
    (h1 : icon_name ≠ "")
    (h2 : ¬ (pyIsAbsolute icon_name = true ∧ fsExists fs icon_name = true)) :
    find_real_icon_path fs icon_name =
      (direct_candidates fs (pyStem icon_name) ++ sub_candidates fs (pyStem icon_name)).find?
        (fsExists fs) ∧
    ((direct_candidates fs (pyStem icon_name)).any (fsExists fs) = true →
      find_real_icon_path fs icon_name =
        (direct_candidates fs (pyStem icon_name)).find? (fsExists fs)) ∧
    ((∀ p ∈ direct_candidates fs (pyStem icon_name) ++ sub_candidates fs (pyStem icon_name),
        fsExists fs p = false) →
      find_real_icon_path fs icon_name = none) := by
  have habs : (pyIsAbsolute icon_name && fsExists fs icon_name) = false := by
    rcases hx : pyIsAbsolute icon_name with _ | _
    · rfl
    · rcases hy : fsExists fs icon_name with _ | _
      · rfl
      · exact absurd ⟨hx, hy⟩ h2
  have hmain : find_real_icon_path fs icon_name =
      (direct_candidates fs (pyStem icon_name) ++ sub_candidates fs (pyStem icon_name)).find?
        (fsExists fs) := by
    unfold find_real_icon_path
    rw [if_neg h1, habs]
    simp only [Bool.false_eq_true, if_false]
    rw [direct_phase_eq_find?, sub_phase_eq_find?, find?_append]
    cases List.find? (fsExists fs) (direct_candidates fs (pyStem icon_name)) <;> rfl
  refine ⟨hmain, ?_, ?_⟩
  · intro hany
    rcases List.any_eq_true.1 hany with ⟨p, hp, hex⟩
    have hsome : (direct_candidates fs (pyStem icon_name)).find? (fsExists fs) ≠ none := by
      intro hnone
      exact absurd hex (by simpa using List.find?_eq_none.1 hnone p hp)
    rw [hmain, find?_append]
    cases hd : (direct_candidates fs (pyStem icon_name)).find? (fsExists fs) with
    | none => exact absurd hd hsome
    | some q => rfl
  · intro hall
    rw [hmain]
    exact List.find?_eq_none.2 (fun p hp => by simp [hall p hp])

def icon_fs : FS :=
  ⟨["/usr/share/pixmaps", "/usr/share/icons/hicolor"],
   ["/usr/share/pixmaps/firefox.png", "/usr/share/icons/hicolor/256x256/apps/firefox.png"],
   "/home/user"⟩

theorem icon_resolution_priority_witness :
    ("firefox" : String) ≠ "" ∧
    find_real_icon_path icon_fs "firefox" =
      (direct_candidates icon_fs (pyStem "firefox")).find? (fsExists icon_fs) ∧
    find_real_icon_path icon_fs "firefox" = some "/usr/share/pixmaps/firefox.png" :=
  ⟨by decide,
   (icon_resolution_priority icon_fs "firefox" (by decide) (by decide)).2.1 (by decide),
   by decide⟩

/-! ### C7: exec-command normalization -/

/-- C7: when the raw exec string tokenizes, `execCommand` is the surviving
tokens (those not beginning with `%`) rejoined with single spaces, and no
surviving token begins with `%`; when tokenization fails, `execCommand` is the
raw string truncated at its first `%` and stripped, and then contains no `%`
character at all.  The spec's example `"app %U --flag %f" ↦ "app --flag"` holds. -/
theorem exec_normalization :
    (∀ (raw : String) (parts : List String), shlexSplit raw = .ok parts →
      clean_exec raw = joinSpace (parts.filter (fun p => !pyStartsWith p "%")) ∧
      ∀ t ∈ parts.filter (fun p => !pyStartsWith p "%"), pyStartsWith t "%" = false) ∧
    (∀ raw : String, shlexSplit raw = .error () →
      clean_exec raw = pyStrip (String.mk (raw.data.takeWhile (fun c => c ≠ '%'))) ∧
      '%' ∉ (clean_exec raw).data) ∧
    clean_exec "app %U --flag %f" = "app --flag" := by
  refine ⟨?_, ?_, by decide⟩
  · intro raw parts h
    constructor
    · unfold clean_exec
      by_cases hr : raw = ""
      · subst hr
        have hp : parts = [] := (Except.ok.inj h.symm)
        subst hp
        rfl
      · rw [if_neg hr, h]
    · intro t ht
      have := (List.mem_filter.1 ht).2
      simpa using this
  · intro raw h
    have hcl : clean_exec raw = pyStrip (String.mk (raw.data.takeWhile (fun c => c ≠ '%'))) := by
      unfold clean_exec
      by_cases hr : raw = ""
      · subst hr
        cases h
      · rw [if_neg hr, h]
    refine ⟨hcl, ?_⟩
    rw [hcl]
    intro hmem
    have h1 : ('%' : Char) ∈ raw.data.takeWhile (fun c => c ≠ '%') := mem_pyTrimChars hmem
    have h2 := List.mem_takeWhile_imp h1
    simp at h2

theorem exec_normalization_witness :
    clean_exec "app %U --flag %f" =
      joinSpace (["app", "%U", "--flag", "%f"].filter (fun p => !pyStartsWith p "%")) ∧
    clean_exec "unbalanced \"quo%te" =
      pyStrip (String.mk (("unbalanced \"quo%te" : String).data.takeWhile (fun c => c ≠ '%'))) :=
  ⟨(exec_normalization.1 "app %U --flag %f" ["app", "%U", "--flag", "%f"] rfl).1,
   (exec_normalization.2.1 "unbalanced \"quo%te" rfl).1⟩

/-! ### C8: terminal launch without an available emulator -/

/-- C8 counterexample: an entry whose `execCommand` is non-empty but consists of
whitespace only (producible from a quoted blank in the descriptor) makes
`launch_app` return at the `if not cmd_parts` guard — silently, with no
`NoTerminalAvailable` report — even though `requiresTerminal` is true and no
terminal emulator is on the path.  The claim's "for every entry ... whose
execCommand is non-empty" is therefore too broad. -/
theorem launch_blank_command_counterexample :
    (" " : String) ≠ "" ∧
    launch_app " " true (fun _ => false) = .noTokens ∧
    LaunchResult.noTokens ≠ LaunchResult.noTerminal :=
  ⟨by decide, rfl, by decide⟩

/-- C8 amended: for every entry with `requiresTerminal` true whose `execCommand`
is non-empty and tokenizes to at least one token, if no terminal emulator of the
fixed probe list is on the search path, the launch reports `NoTerminalAvailable`
and stops: the result is the `noTerminal` outcome, not `spawned` and not
`notFound`, so neither executable resolution of the entry's command nor process
creation is reached. -/
theorem no_terminal_available_reported (command : String) (which : String → Bool)
    (h0 : command ≠ "")
    (htok : (match shlexSplit command with
             | .ok ps => ps
             | .error _ => pySplitWS command) ≠ [])
    (hterm : ∀ t ∈ terminals, which t.1 = false) :
    launch_app command true which = .noTerminal := by
  unfold launch_app
  rw [if_neg h0]
  have hfind : terminals.find? (fun t => which t.1) = none :=
    List.find?_eq_none.2 (fun t ht => by simp [hterm t ht])
  cases hcp : (match shlexSplit command with
               | .ok ps => ps
               | .error _ => pySplitWS command) with
  | nil => exact absurd hcp htok
  | cons a as =>
    simp only [hfind, if_true]

theorem no_terminal_available_reported_witness :
    launch_app "bash" true (fun _ => false) = .noTerminal :=
  no_terminal_available_reported "bash" (fun _ => false) (by decide) (by decide)
    (fun _ _ => rfl)
